import Mathlib

/-!
Shallow embedding of `src/santa.py` (Secret Santa link generator).

Modelling conventions:
* Python's global random number generator is abstracted as an explicit
  shuffle stream `Oracle : Nat → List String → List String` together with a
  position counter: each call to `random.shuffle xs` reads the stream at the
  current position (obtaining the shuffled list) and advances the position.
  A real shuffle always returns a permutation of its input; this is the
  `GoodPerms` hypothesis.
* A Python `dict` is an association list with first-key-wins lookup,
  in-place replacement on update of an existing key, append on update of a
  fresh key, and removal on `pop` — exactly the observable dict semantics.
* `frozenset((a, b))` is the finite set `{a, b} : Finset String`.
* Raising an exception is modelled by an `Except`/`Option` error value.
* The module-level configuration globals (`PARTICIPANTS`, `FORBIDDEN_PAIRS`,
  `ALLOW_RECIPROCAL`), which the test-suite monkeypatches per test, are
  passed to the embedded functions as explicit parameters.
* File output (`write_csv`), URL building and `print` calls are I/O and out
  of the modelled core.
-/

namespace Santa

/-- Stream of shuffle outcomes: position `n` of the stream tells how the
`n`-th call to `random.shuffle` reorders its input list. -/
def Oracle : Type := Nat → List String → List String

/-- Oracle of a degenerate random stream whose every shuffle leaves the list
unchanged (used to instantiate theorems at concrete inputs). -/
def idOracle : Oracle := fun _ l => l

/-- A faithful random stream: every shuffle outcome is a permutation of the
input list, which is the contract of `random.shuffle`. -/
def GoodPerms (P : Oracle) : Prop := ∀ (n : Nat) (l : List String), (P n l).Perm l

/-- One call to `random.shuffle`: read the stream at the current position and
advance the position. -/
def shuffleStep (P : Oracle) (pos : Nat) (l : List String) : List String × Nat :=
  (P pos l, pos + 1)

/-- A Python `dict` from strings to strings, as an insertion-ordered
association list. -/
abbrev Dict := List (String × String)

/-- Lookup `d.get(k)`: first entry with key `k`, `None` when absent. -/
def dictGet (d : Dict) (k : String) : Option String :=
  match d with
  | [] => none
  | (k', v) :: rest => if k' = k then some v else dictGet rest k

/-- Update `d[k] = v`: replace the value at an existing key in place,
otherwise append the new entry at the end (dict insertion order). -/
def dictSet (d : Dict) (k v : String) : Dict :=
  match d with
  | [] => [(k, v)]
  | (k', v') :: rest => if k' = k then (k', v) :: rest else (k', v') :: dictSet rest k v

/-- Removal `d.pop(k, None)`: drop the entry with key `k` when present. -/
def dictPop (d : Dict) (k : String) : Dict :=
  match d with
  | [] => []
  | (k', v') :: rest => if k' = k then rest else (k', v') :: dictPop rest k

/-- Keys of a dict, in insertion order (`d.keys()`). -/
def dkeys (d : Dict) : List String := d.map Prod.fst

/-- Values of a dict, in insertion order (`d.values()`). -/
def dvals (d : Dict) : List String := d.map Prod.snd

/-- Python truthiness of an `Optional[Dict]`: `None` and the empty dict are
falsy, a non-empty dict is truthy. -/
def truthy : Option Dict → Bool
  | none => false
  | some d => decide (d ≠ [])

/-- Model of `frozenset((a, b))`: the unordered pair as a finite set. -/
def pairSet (a b : String) : Finset String := {a, b}

/-- Configured participant list of the module (`PARTICIPANTS`). -/
def PARTICIPANTS : List String :=
  ["Caleb", "Chuck", "Kelina", "Libby", "MaryGrace", "Laura", "John",
   "Rakan", "Leah", "Sam", "Sav", "Alan", "Zoe"]

/-- Configured forbidden bidirectional pairs of the module
(`FORBIDDEN_PAIRS`). -/
def FORBIDDEN_PAIRS : List (String × String) :=
  [("Chuck", "Laura"), ("Rakan", "Leah"), ("Sam", "MaryGrace"),
   ("Zoe", "Sav"), ("Libby", "Alan")]

/-- Configured reciprocity flag of the module (`ALLOW_RECIPROCAL`). -/
def ALLOW_RECIPROCAL : Bool := true

/-- Embedding of `_build_forbidden_set`: the set of frozensets of the
configured pairs. -/
def build_forbidden_set (pairs : List (String × String)) : Finset (Finset String) :=
  (pairs.map (fun p => pairSet p.1 p.2)).toFinset

/-- Embedding of the `for recipient in candidates` loop body of `backtrack`
in `_find_assignments`, parametric in the recursive call `recur` (which
receives the chosen recipient, the extended assignment and the random
position). Skips a candidate when reciprocity is disallowed and the partial
assignment already maps the candidate to the giver; otherwise tentatively
assigns, recurses, returns a truthy result immediately, and on failure pops
the tentative entry and moves to the next candidate. -/
def btLoop (allow_reciprocal : Bool) (giver : String)
    (recur : String → Dict → Nat → Option Dict × Nat) :
    List String → Dict → Nat → Option Dict × Nat
  | [], _, pos => (none, pos)
  | r :: more, assignment, pos =>
    if allow_reciprocal = false ∧ dictGet assignment r = some giver then
      btLoop allow_reciprocal giver recur more assignment pos
    else
      let a1 := dictSet assignment giver r
      let res := recur r a1 pos
      if truthy res.1 = true then res
      else btLoop allow_reciprocal giver recur more (dictPop a1 giver) res.2

/-- Embedding of the inner `backtrack` of `_find_assignments`. The Python
index `i` into the shuffled giver list is represented by the suffix
`givers = shuffled[i:]`, so `shuffled[index]` is the head and `index + 1`
the tail; the base case `index == len(shuffled)` is the empty suffix.
Candidates are the remaining pool members distinct from the giver whose
frozenset with the giver is not forbidden, shuffled before being tried. -/
def backtrack (P : Oracle) (forbidden : Finset (Finset String)) (allow_reciprocal : Bool) :
    List String → List String → Dict → Nat → Option Dict × Nat
  | [], _, assignment, pos => (some assignment, pos)
  | giver :: rest, remaining, assignment, pos =>
    let candidates := remaining.filter (fun r => decide (r ≠ giver ∧ pairSet giver r ∉ forbidden))
    let s := shuffleStep P pos candidates
    btLoop allow_reciprocal giver
      (fun r a1 p =>
        backtrack P forbidden allow_reciprocal rest
          (remaining.filter (fun x => decide (x ≠ r))) a1 p)
      s.1 assignment s.2

/-- Embedding of `_find_assignments`: shuffle a copy of the participants as
the giver order, shuffle another copy as the available recipient pool, then
run the backtracking search from an empty assignment. -/
def find_assignments (P : Oracle) (participants : List String)
    (forbidden : Finset (Finset String)) (allow_reciprocal : Bool) (pos : Nat) :
    Option Dict × Nat :=
  let s1 := shuffleStep P pos participants
  let s2 := shuffleStep P s1.2 participants
  backtrack P forbidden allow_reciprocal s1.1 s2.1 [] s2.2

/-- Embedding of the `for _ in range(max_attempts)` driver loop of
`generate_pairings`, counting down the attempts that are still allowed: each
attempt calls `_find_assignments` and a truthy result is returned
immediately; `none` is the `RuntimeError` raised after the last attempt. -/
def attemptLoop (P : Oracle) (participants : List String)
    (forbidden : Finset (Finset String)) (allow_reciprocal : Bool) :
    Nat → Nat → Option Dict
  | 0, _ => none
  | n + 1, pos =>
    let res := find_assignments P participants forbidden allow_reciprocal pos
    if truthy res.1 = true then res.1
    else attemptLoop P participants forbidden allow_reciprocal n res.2

/-- Embedding of `generate_pairings`: build the forbidden set once, then run
up to `max_attempts = 5000` attempts; `none` models raising
`RuntimeError("Unable to generate a valid assignment with current constraints.")`. -/
def generate_pairings (P : Oracle) (participants : List String)
    (forbidden_pairs : List (String × String)) (allow_reciprocal : Bool) (pos : Nat) :
    Option Dict :=
  attemptLoop P participants (build_forbidden_set forbidden_pairs) allow_reciprocal 5000 pos

/-- Result and final random position of the `k`-th attempt (counting from 0)
that the driver loop of `generate_pairings` would run starting at random
position `pos`: attempt `k + 1` starts at the position where attempt `k`
stopped. -/
def attemptAt (P : Oracle) (participants : List String)
    (forbidden : Finset (Finset String)) (allow_reciprocal : Bool) (pos : Nat) :
    Nat → Option Dict × Nat
  | 0 => find_assignments P participants forbidden allow_reciprocal pos
  | k + 1 =>
    find_assignments P participants forbidden allow_reciprocal
      (attemptAt P participants forbidden allow_reciprocal pos k).2

/-- Embedding of `verify_assignments`: collect the five issue messages in
order and raise `ValueError` exactly when at least one issue was found (the
interpolated offender lists of the Python messages are abbreviated away;
which issues fire is modelled exactly). -/
def verify_assignments (assignments : Dict) (participants : List String) :
    Except String Unit :=
  let participant_set := participants.toFinset
  let giver_set := (dkeys assignments).toFinset
  let recipient_values := dvals assignments
  let recipient_set := recipient_values.toFinset
  let issues : List String :=
    (if participant_set \ giver_set ≠ ∅ then ["Missing givers"] else []) ++
    (if participant_set \ recipient_set ≠ ∅ then ["Missing recipients"] else []) ++
    (if recipient_values.length ≠ recipient_set.card then ["Duplicate recipients detected"] else []) ++
    (if giver_set \ participant_set ≠ ∅ then ["Unexpected givers"] else []) ++
    (if recipient_set \ participant_set ≠ ∅ then ["Unexpected recipients"] else [])
  if issues ≠ [] then
    Except.error ("Assignment verification failed; " ++ String.intercalate "; " issues)
  else Except.ok ()

/-- Error outcomes of `main`: the duplicate-participant `ValueError`, the
Infeasible `RuntimeError` of `generate_pairings`, and the `ValueError` of
`verify_assignments`. -/
inductive MainError where
  | configError : String → MainError
  | infeasible : String → MainError
  | verification : String → MainError
deriving DecidableEq

/-- Embedding of `main` up to its pure core: check participant uniqueness
via `len(set(PARTICIPANTS)) != len(PARTICIPANTS)` before anything else, then
generate, then verify; the final CSV write and prints are I/O and omitted.
The configuration globals are passed as parameters. -/
def main (P : Oracle) (participants : List String)
    (forbidden_pairs : List (String × String)) (allow_reciprocal : Bool) (pos : Nat) :
    Except MainError Dict :=
  if participants.toFinset.card ≠ participants.length then
    Except.error (MainError.configError "Participant names must be unique.")
  else
    match generate_pairings P participants forbidden_pairs allow_reciprocal pos with
    | none =>
      Except.error (MainError.infeasible
        "Unable to generate a valid assignment with current constraints.")
    | some assignments =>
      match verify_assignments assignments participants with
      | Except.error e => Except.error (MainError.verification e)
      | Except.ok _ => Except.ok assignments

/-- The five invariants of spec section 3 for an assignment dict: givers are
exactly the participants, recipients are exactly the participants each used
once, no self-assignment, no forbidden pair crossed, and no mutual pair when
reciprocity is disallowed. -/
structure ValidAssignment (participants : List String) (forbidden : Finset (Finset String))
    (allow_reciprocal : Bool) (d : Dict) : Prop where
  givers_perm : (dkeys d).Perm participants
  recips_perm : (dvals d).Perm participants
  no_self : ∀ g r, dictGet d g = some r → g ≠ r
  no_forbidden : ∀ g r, dictGet d g = some r → pairSet g r ∉ forbidden
  no_mutual : allow_reciprocal = false → ∀ g r, dictGet d g = some r →
    dictGet d r = some g → False

/-- Invariant tying a reachable state of the backtracking search to the
participants and constraints: the pending givers are exactly the
unassigned participants, the remaining pool is exactly the unused
recipients, and the partial assignment already satisfies every filter the
search enforces. -/
structure SearchInv (participants : List String) (forbidden : Finset (Finset String))
    (allow_reciprocal : Bool) (givers remaining : List String) (assignment : Dict) : Prop where
  psNodup : participants.Nodup
  giversNodup : givers.Nodup
  giversMem : ∀ g ∈ givers, g ∈ participants
  giversUnassigned : ∀ g ∈ givers, dictGet assignment g = none
  unassignedGivers : ∀ g ∈ participants, dictGet assignment g = none → g ∈ givers
  remainingIff : ∀ r, r ∈ remaining ↔ (r ∈ participants ∧ r ∉ dvals assignment)
  keysNodup : (dkeys assignment).Nodup
  keysMem : ∀ g ∈ dkeys assignment, g ∈ participants
  valsNodup : (dvals assignment).Nodup
  entriesOK : ∀ e ∈ assignment, e.1 ≠ e.2 ∧ pairSet e.1 e.2 ∉ forbidden ∧ e.2 ∈ participants
  noMutual : allow_reciprocal = false → ∀ e ∈ assignment, dictGet assignment e.2 ≠ some e.1

/-! Basic lemmas about the dict model. -/

/-- Lookup misses exactly the absent keys. -/
theorem dictGet_eq_none_iff (d : Dict) (k : String) :
    dictGet d k = none ↔ k ∉ dkeys d := by
  induction d with
  | nil => simp [dictGet, dkeys]
  | cons e rest ih =>
    by_cases h : e.1 = k
    · simp [dictGet, dkeys, h]
    · simp [dictGet, dkeys, h, ih, Ne.symm h]

/-- A present key has a lookup value. -/
theorem mem_dkeys_iff_isSome (d : Dict) (k : String) :
    k ∈ dkeys d ↔ ∃ v, dictGet d k = some v := by
  rw [← not_iff_not, ← dictGet_eq_none_iff]
  cases dictGet d k <;> simp

/-- A successful lookup returns an entry of the dict. -/
theorem dictGet_mem (d : Dict) (k : String) (v : String) (h : dictGet d k = some v) :
    (k, v) ∈ d := by
  induction d with
  | nil => simp [dictGet] at h
  | cons e rest ih =>
    obtain ⟨k1, v1⟩ := e
    by_cases he : k1 = k
    · rw [dictGet, if_pos he] at h
      cases h
      subst he
      exact List.mem_cons_self _ _
    · rw [dictGet, if_neg he] at h
      exact List.mem_cons_of_mem _ (ih h)

/-- With no duplicate keys, every entry is found by lookup. -/
theorem mem_dictGet (d : Dict) (k v : String) (hnd : (dkeys d).Nodup)
    (h : (k, v) ∈ d) : dictGet d k = some v := by
  induction d with
  | nil => simp at h
  | cons e rest ih =>
    rw [dkeys, List.map_cons, List.nodup_cons] at hnd
    rcases List.mem_cons.mp h with h1 | h1
    · rw [← h1, dictGet, if_pos rfl]
    · have hk : e.1 ≠ k := by
        intro he
        exact hnd.1 (he ▸ (List.mem_map_of_mem Prod.fst h1))
      rw [dictGet, if_neg hk]
      exact ih hnd.2 h1

/-- Setting a fresh key appends the new entry at the end. -/
theorem dictSet_fresh (d : Dict) (k v : String) (h : k ∉ dkeys d) :
    dictSet d k v = d ++ [(k, v)] := by
  induction d with
  | nil => simp [dictSet]
  | cons e rest ih =>
    rw [dkeys, List.map_cons, List.mem_cons] at h
    push_neg at h
    rw [dictSet, if_neg (fun he => h.1 he.symm), ih h.2, List.cons_append]

/-- Popping the key that was just freshly set restores the dict. -/
theorem dictPop_dictSet (d : Dict) (k v : String) (h : k ∉ dkeys d) :
    dictPop (dictSet d k v) k = d := by
  induction d with
  | nil => simp [dictSet, dictPop]
  | cons e rest ih =>
    rw [dkeys, List.map_cons, List.mem_cons] at h
    push_neg at h
    rw [dictSet, if_neg (fun he => h.1 he.symm), dictPop,
      if_neg (fun he => h.1 he.symm), ih h.2]

/-- Lookup of a key right after setting it. -/
theorem dictGet_dictSet_self (d : Dict) (k v : String) :
    dictGet (dictSet d k v) k = some v := by
  induction d with
  | nil => simp [dictSet, dictGet]
  | cons e rest ih =>
    by_cases he : e.1 = k
    · rw [dictSet, if_pos he, dictGet, if_pos he]
    · rw [dictSet, if_neg he, dictGet, if_neg he]
      exact ih

/-- Setting one key does not disturb lookups of other keys. -/
theorem dictGet_dictSet_ne (d : Dict) (k v k' : String) (h : k' ≠ k) :
    dictGet (dictSet d k v) k' = dictGet d k' := by
  induction d with
  | nil =>
    have h2 : ¬ k = k' := fun he => h (Eq.symm he)
    simp [dictSet, dictGet, h2]
  | cons e rest ih =>
    obtain ⟨k1, v1⟩ := e
    by_cases he : k1 = k
    · rw [dictSet, if_pos he, dictGet, dictGet,
        if_neg (fun h' => h (Eq.trans (Eq.symm h') he)),
        if_neg (fun h' => h (Eq.trans (Eq.symm h') he))]
    · rw [dictSet, if_neg he, dictGet, dictGet]
      by_cases he' : k1 = k'
      · rw [if_pos he', if_pos he']
      · rw [if_neg he', if_neg he', ih]

/-- Setting a key never produces the empty dict. -/
theorem dictSet_ne_nil (d : Dict) (k v : String) : dictSet d k v ≠ [] := by
  cases d with
  | nil => simp [dictSet]
  | cons e rest =>
    rw [dictSet]
    split <;> simp

/-- Keys after a fresh set. -/
theorem dkeys_dictSet_fresh (d : Dict) (k v : String) (h : k ∉ dkeys d) :
    dkeys (dictSet d k v) = dkeys d ++ [k] := by
  rw [dictSet_fresh d k v h, dkeys, List.map_append, ← dkeys]
  rfl

/-- Values after a fresh set. -/
theorem dvals_dictSet_fresh (d : Dict) (k v : String) (h : k ∉ dkeys d) :
    dvals (dictSet d k v) = dvals d ++ [v] := by
  rw [dictSet_fresh d k v h, dvals, List.map_append, ← dvals]
  rfl

/-- Truthiness of an optional dict characterised. -/
theorem truthy_eq_true_iff (o : Option Dict) :
    truthy o = true ↔ ∃ d, o = some d ∧ d ≠ [] := by
  cases o with
  | none => simp [truthy]
  | some d => simp [truthy]

/-- A dict whose values are duplicate-free maps at most one key to each
value. -/
theorem dictGet_inj (d : Dict) (hvals : (dvals d).Nodup) (a b v : String)
    (ha : dictGet d a = some v) (hb : dictGet d b = some v) : a = b := by
  have hma := dictGet_mem d a v ha
  have hmb := dictGet_mem d b v hb
  have := List.inj_on_of_nodup_map (f := Prod.snd) hvals hma hmb rfl
  exact congrArg Prod.fst this

/-! Unfolding equations for the search. -/

/-- Candidate loop on an exhausted candidate list. -/
theorem btLoop_nil (aR : Bool) (giver : String)
    (recur : String → Dict → Nat → Option Dict × Nat) (a : Dict) (pos : Nat) :
    btLoop aR giver recur [] a pos = (none, pos) := rfl

/-- Candidate loop on a non-empty candidate list. -/
theorem btLoop_cons (aR : Bool) (giver : String)
    (recur : String → Dict → Nat → Option Dict × Nat) (r : String) (more : List String)
    (a : Dict) (pos : Nat) :
    btLoop aR giver recur (r :: more) a pos =
      if aR = false ∧ dictGet a r = some giver then
        btLoop aR giver recur more a pos
      else if truthy (recur r (dictSet a giver r) pos).1 = true then
        recur r (dictSet a giver r) pos
      else
        btLoop aR giver recur more (dictPop (dictSet a giver r) giver)
          (recur r (dictSet a giver r) pos).2 := rfl

/-- Backtracking base case: all givers placed. -/
theorem backtrack_nil (P : Oracle) (fb : Finset (Finset String)) (aR : Bool)
    (remaining : List String) (a : Dict) (pos : Nat) :
    backtrack P fb aR [] remaining a pos = (some a, pos) := rfl

/-- Backtracking step: filter and shuffle the candidates for the next giver,
then run the candidate loop whose recursive call removes the chosen
recipient from the pool. -/
theorem backtrack_cons (P : Oracle) (fb : Finset (Finset String)) (aR : Bool)
    (giver : String) (rest remaining : List String) (a : Dict) (pos : Nat) :
    backtrack P fb aR (giver :: rest) remaining a pos =
      btLoop aR giver
        (fun r a1 p =>
          backtrack P fb aR rest (remaining.filter (fun x => decide (x ≠ r))) a1 p)
        (P pos (remaining.filter (fun r => decide (r ≠ giver ∧ pairSet giver r ∉ fb))))
        a (pos + 1) := rfl

/-! Search-state invariant: initialisation and preservation. -/

/-- A freshly started attempt satisfies the search invariant: both shuffles
are permutations of the participant list and the assignment is empty. -/
theorem searchInv_init (ps : List String) (fb : Finset (Finset String)) (aR : Bool)
    (g0 r0 : List String) (hnd : ps.Nodup) (hg : g0.Perm ps) (hr : r0.Perm ps) :
    SearchInv ps fb aR g0 r0 [] :=
  { psNodup := hnd
    giversNodup := hg.nodup_iff.mpr hnd
    giversMem := fun g hgm => hg.mem_iff.mp hgm
    giversUnassigned := fun _ _ => rfl
    unassignedGivers := fun g hgp _ => hg.mem_iff.mpr hgp
    remainingIff := fun r => by simp [dvals, hr.mem_iff]
    keysNodup := List.nodup_nil
    keysMem := fun g h => absurd h (by simp [dkeys])
    valsNodup := List.nodup_nil
    entriesOK := fun e h => absurd h (List.not_mem_nil e)
    noMutual := fun _ e h => absurd h (List.not_mem_nil e) }

/-- Tentatively assigning a legal candidate recipient to the current giver
preserves the search invariant for the recursive call. -/
theorem searchInv_extend {ps : List String} {fb : Finset (Finset String)} {aR : Bool}
    {giver : String} {rest remaining : List String} {assignment : Dict} {r : String}
    (inv : SearchInv ps fb aR (giver :: rest) remaining assignment)
    (hr_rem : r ∈ remaining) (hrg : r ≠ giver) (hfb : pairSet giver r ∉ fb)
    (hpass : ¬(aR = false ∧ dictGet assignment r = some giver)) :
    SearchInv ps fb aR rest (remaining.filter (fun x => decide (x ≠ r)))
      (dictSet assignment giver r) := by
  have hgu : dictGet assignment giver = none :=
    inv.giversUnassigned giver (List.mem_cons_self _ _)
  have hfresh : giver ∉ dkeys assignment := (dictGet_eq_none_iff _ _).mp hgu
  have happ : dictSet assignment giver r = assignment ++ [(giver, r)] :=
    dictSet_fresh _ _ _ hfresh
  have hkeys : dkeys (dictSet assignment giver r) = dkeys assignment ++ [giver] :=
    dkeys_dictSet_fresh _ _ _ hfresh
  have hvals : dvals (dictSet assignment giver r) = dvals assignment ++ [r] :=
    dvals_dictSet_fresh _ _ _ hfresh
  have hrps : r ∈ ps := ((inv.remainingIff r).mp hr_rem).1
  have hrnv : r ∉ dvals assignment := ((inv.remainingIff r).mp hr_rem).2
  have hgps : giver ∈ ps := inv.giversMem giver (List.mem_cons_self _ _)
  have hgnr : giver ∉ rest := (List.nodup_cons.mp inv.giversNodup).1
  refine
    { psNodup := inv.psNodup
      giversNodup := (List.nodup_cons.mp inv.giversNodup).2
      giversMem := fun g hg => inv.giversMem g (List.mem_cons_of_mem _ hg)
      giversUnassigned := ?_
      unassignedGivers := ?_
      remainingIff := ?_
      keysNodup := ?_
      keysMem := ?_
      valsNodup := ?_
      entriesOK := ?_
      noMutual := ?_ }
  · intro g hg
    have hne : g ≠ giver := fun he => hgnr (he ▸ hg)
    rw [dictGet_dictSet_ne _ _ _ _ hne]
    exact inv.giversUnassigned g (List.mem_cons_of_mem _ hg)
  · intro g hgps' hnone
    have hne : g ≠ giver := by
      intro he
      rw [he, dictGet_dictSet_self] at hnone
      exact Option.noConfusion hnone
    rw [dictGet_dictSet_ne _ _ _ _ hne] at hnone
    rcases List.mem_cons.mp (inv.unassignedGivers g hgps' hnone) with h1 | h1
    · exact absurd h1 hne
    · exact h1
  · intro x
    rw [List.mem_filter, inv.remainingIff x, hvals]
    simp only [decide_eq_true_iff, List.mem_append, List.mem_singleton]
    tauto
  · rw [hkeys]
    refine List.Nodup.append inv.keysNodup (List.nodup_singleton _) ?_
    intro a ha hb
    rw [List.mem_singleton] at hb
    exact hfresh (hb ▸ ha)
  · intro g hg
    rw [hkeys] at hg
    rcases List.mem_append.mp hg with h1 | h1
    · exact inv.keysMem g h1
    · rw [List.mem_singleton] at h1
      exact h1 ▸ hgps
  · rw [hvals]
    refine List.Nodup.append inv.valsNodup (List.nodup_singleton _) ?_
    intro a ha hb
    rw [List.mem_singleton] at hb
    exact hrnv (hb ▸ ha)
  · intro e he
    rw [happ] at he
    rcases List.mem_append.mp he with h1 | h1
    · exact inv.entriesOK e h1
    · rw [List.mem_singleton] at h1
      subst h1
      exact ⟨Ne.symm hrg, hfb, hrps⟩
  · intro haR e he hcontra
    have hnr : dictGet assignment r ≠ some giver := fun hx => hpass ⟨haR, hx⟩
    rw [happ] at he
    rcases List.mem_append.mp he with h1 | h1
    · by_cases h2 : e.2 = giver
      · rw [h2, dictGet_dictSet_self] at hcontra
        have her : r = e.1 := Option.some.inj hcontra
        have hlook : dictGet assignment e.1 = some e.2 :=
          mem_dictGet _ _ _ inv.keysNodup h1
        rw [← her, h2] at hlook
        exact hnr hlook
      · rw [dictGet_dictSet_ne _ _ _ _ h2] at hcontra
        exact inv.noMutual haR e h1 hcontra
    · rw [List.mem_singleton] at h1
      subst h1
      rw [dictGet_dictSet_ne _ _ _ _ hrg] at hcontra
      exact hnr hcontra

/-! Soundness: whatever the search returns satisfies the invariants. -/

/-- Soundness of the candidate loop, parametric in the recursive call: if
every recursive result from an admissible candidate satisfies `C`, so does
any dict the loop returns. -/
theorem btLoop_sound {C : Dict → Prop} {aR : Bool} {giver : String}
    {recur : String → Dict → Nat → Option Dict × Nat} {assignment : Dict}
    (hfresh : giver ∉ dkeys assignment) (cands : List String)
    (hrec : ∀ r pos d, r ∈ cands → ¬(aR = false ∧ dictGet assignment r = some giver) →
      (recur r (dictSet assignment giver r) pos).1 = some d → C d) :
    ∀ pos d, (btLoop aR giver recur cands assignment pos).1 = some d → C d := by
  induction cands with
  | nil =>
    intro pos d h
    rw [btLoop_nil] at h
    exact Option.noConfusion h
  | cons r more ih =>
    intro pos d h
    rw [btLoop_cons] at h
    by_cases hskip : aR = false ∧ dictGet assignment r = some giver
    · rw [if_pos hskip] at h
      exact ih (fun r' p d' hm => hrec r' p d' (List.mem_cons_of_mem _ hm)) pos d h
    · rw [if_neg hskip] at h
      by_cases ht : truthy (recur r (dictSet assignment giver r) pos).1 = true
      · rw [if_pos ht] at h
        exact hrec r pos d (List.mem_cons_self _ _) hskip h
      · rw [if_neg ht, dictPop_dictSet _ _ _ hfresh] at h
        exact ih (fun r' p d' hm => hrec r' p d' (List.mem_cons_of_mem _ hm)) _ d h

/-- Soundness of the backtracking search: from any state satisfying the
search invariant, a returned dict satisfies all five invariants. -/
theorem backtrack_sound (P : Oracle) (hP : GoodPerms P) (ps : List String)
    (fb : Finset (Finset String)) (aR : Bool) :
    ∀ (givers remaining : List String) (assignment : Dict) (pos : Nat) (d : Dict),
      SearchInv ps fb aR givers remaining assignment →
      (backtrack P fb aR givers remaining assignment pos).1 = some d →
      ValidAssignment ps fb aR d := by
  intro givers
  induction givers with
  | nil =>
    intro remaining assignment pos d inv h
    rw [backtrack_nil] at h
    cases h
    have hkeys_perm : (dkeys assignment).Perm ps := by
      refine (List.perm_ext_iff_of_nodup inv.keysNodup inv.psNodup).mpr ?_
      intro g
      constructor
      · exact inv.keysMem g
      · intro hg
        by_cases hnone : dictGet assignment g = none
        · exact absurd (inv.unassignedGivers g hg hnone) (List.not_mem_nil g)
        · rcases Option.ne_none_iff_exists'.mp hnone with ⟨v, hv⟩
          exact (mem_dkeys_iff_isSome assignment g).mpr ⟨v, hv⟩
    have hlen : (dvals assignment).length = ps.length := by
      rw [dvals, List.length_map, ← hkeys_perm.length_eq, dkeys, List.length_map]
    have hvals_sub : dvals assignment ⊆ ps := by
      intro v hv
      rcases List.mem_map.mp hv with ⟨e, he, hev⟩
      rw [← hev]
      exact (inv.entriesOK e he).2.2
    have hvals_perm : (dvals assignment).Perm ps :=
      (inv.valsNodup.subperm hvals_sub).perm_of_length_le (le_of_eq hlen.symm)
    exact
      { givers_perm := hkeys_perm
        recips_perm := hvals_perm
        no_self := fun g r h => (inv.entriesOK (g, r) (dictGet_mem _ _ _ h)).1
        no_forbidden := fun g r h => (inv.entriesOK (g, r) (dictGet_mem _ _ _ h)).2.1
        no_mutual := fun haR g r h1 h2 =>
          inv.noMutual haR (g, r) (dictGet_mem _ _ _ h1) h2 }
  | cons giver rest ih =>
    intro remaining assignment pos d inv h
    rw [backtrack_cons] at h
    have hgu : dictGet assignment giver = none :=
      inv.giversUnassigned giver (List.mem_cons_self _ _)
    have hfresh : giver ∉ dkeys assignment := (dictGet_eq_none_iff _ _).mp hgu
    refine btLoop_sound hfresh _ ?_ (pos + 1) d h
    intro r p d' hrc hpass hrec
    have hperm :=
      hP pos (remaining.filter (fun r => decide (r ≠ giver ∧ pairSet giver r ∉ fb)))
    have hrcand := hperm.mem_iff.mp hrc
    rw [List.mem_filter] at hrcand
    have hcond := of_decide_eq_true hrcand.2
    exact ih _ _ p d' (searchInv_extend inv hrcand.1 hcond.1 hcond.2 hpass) hrec

/-- Soundness of one attempt: a dict returned by `_find_assignments`
satisfies all five invariants. -/
theorem find_assignments_sound {P : Oracle} (hP : GoodPerms P) {ps : List String}
    (hnd : ps.Nodup) (fb : Finset (Finset String)) (aR : Bool) (pos : Nat) (d : Dict)
    (h : (find_assignments P ps fb aR pos).1 = some d) :
    ValidAssignment ps fb aR d := by
  exact backtrack_sound P hP ps fb aR (P pos ps) (P (pos + 1) ps) [] (pos + 1 + 1) d
    (searchInv_init ps fb aR _ _ hnd (hP pos ps) (hP (pos + 1) ps)) h

/-- Soundness of the driver loop: a dict returned by any number of attempts
satisfies all five invariants. -/
theorem attemptLoop_sound {P : Oracle} (hP : GoodPerms P) {ps : List String}
    (hnd : ps.Nodup) (fb : Finset (Finset String)) (aR : Bool) :
    ∀ (n pos : Nat) (d : Dict), attemptLoop P ps fb aR n pos = some d →
      ValidAssignment ps fb aR d := by
  intro n
  induction n with
  | zero => intro pos d h; exact Option.noConfusion h
  | succ n ih =>
    intro pos d h
    rw [attemptLoop] at h
    by_cases ht : truthy (find_assignments P ps fb aR pos).1 = true
    · rw [if_pos ht] at h
      exact find_assignments_sound hP hnd fb aR pos d h
    · rw [if_neg ht] at h
      exact ih _ d h

/-! Completeness: within one attempt the backtracking search is exhaustive. -/

/-- Completeness of the candidate loop, parametric in the recursive call: if
some candidate in the list passes the reciprocity filter and its recursive
call always succeeds with a non-empty dict, the loop succeeds with a
non-empty dict. -/
theorem btLoop_complete {aR : Bool} {giver : String}
    {recur : String → Dict → Nat → Option Dict × Nat} {assignment : Dict}
    (hfresh : giver ∉ dkeys assignment) (rstar : String)
    (hpass : ¬(aR = false ∧ dictGet assignment rstar = some giver))
    (hsucc : ∀ p, ∃ d, (recur rstar (dictSet assignment giver rstar) p).1 = some d ∧ d ≠ []) :
    ∀ (cands : List String) (pos : Nat), rstar ∈ cands →
      ∃ d, (btLoop aR giver recur cands assignment pos).1 = some d ∧ d ≠ [] := by
  intro cands
  induction cands with
  | nil => intro pos hm; exact absurd hm (List.not_mem_nil _)
  | cons r more ih =>
    intro pos hm
    rw [btLoop_cons]
    by_cases hskip : aR = false ∧ dictGet assignment r = some giver
    · rw [if_pos hskip]
      have hne : r ≠ rstar := fun he => hpass (he ▸ hskip)
      rcases List.mem_cons.mp hm with h1 | h1
      · exact absurd h1.symm hne
      · exact ih pos h1
    · rw [if_neg hskip]
      by_cases ht : truthy (recur r (dictSet assignment giver r) pos).1 = true
      · rw [if_pos ht]
        exact (truthy_eq_true_iff _).mp ht
      · rw [if_neg ht, dictPop_dictSet _ _ _ hfresh]
        have hne : r ≠ rstar := by
          intro he
          subst he
          exact ht ((truthy_eq_true_iff _).mpr (hsucc pos))
        rcases List.mem_cons.mp hm with h1 | h1
        · exact absurd h1.symm hne
        · exact ih _ h1

/-- Completeness of the backtracking search: from any state satisfying the
search invariant that some valid total assignment `T` extends, the search
returns a dict (non-empty whenever anything was or remains to be placed). -/
theorem backtrack_complete (P : Oracle) (hP : GoodPerms P) (ps : List String)
    (fb : Finset (Finset String)) (aR : Bool) (T : Dict)
    (hT : ValidAssignment ps fb aR T) :
    ∀ (givers remaining : List String) (assignment : Dict) (pos : Nat),
      SearchInv ps fb aR givers remaining assignment →
      (∀ g r, dictGet assignment g = some r → dictGet T g = some r) →
      ∃ d, (backtrack P fb aR givers remaining assignment pos).1 = some d ∧
        ((givers ≠ [] ∨ assignment ≠ []) → d ≠ []) := by
  intro givers
  induction givers with
  | nil =>
    intro remaining assignment pos _ _
    rw [backtrack_nil]
    refine ⟨assignment, rfl, ?_⟩
    rintro (h | h)
    · exact absurd rfl h
    · exact h
  | cons giver rest ih =>
    intro remaining assignment pos inv hagree
    rw [backtrack_cons]
    have hgps : giver ∈ ps := inv.giversMem giver (List.mem_cons_self _ _)
    have hgkeysT : giver ∈ dkeys T := hT.givers_perm.mem_iff.mpr hgps
    rcases (mem_dkeys_iff_isSome T giver).mp hgkeysT with ⟨rT, hrT⟩
    have hTvalsNodup : (dvals T).Nodup := hT.recips_perm.nodup_iff.mpr inv.psNodup
    have hgrT : giver ≠ rT := hT.no_self giver rT hrT
    have hfbT : pairSet giver rT ∉ fb := hT.no_forbidden giver rT hrT
    have hrTps : rT ∈ ps := by
      have hm := dictGet_mem T giver rT hrT
      exact hT.recips_perm.mem_iff.mp (List.mem_map_of_mem Prod.snd hm)
    have hgu : dictGet assignment giver = none :=
      inv.giversUnassigned giver (List.mem_cons_self _ _)
    have hfresh : giver ∉ dkeys assignment := (dictGet_eq_none_iff _ _).mp hgu
    have hrTnv : rT ∉ dvals assignment := by
      intro hv
      rcases List.mem_map.mp hv with ⟨e, he, hev⟩
      have h1 : dictGet assignment e.1 = some rT := by
        have := mem_dictGet _ _ _ inv.keysNodup he
        rw [← hev]
        exact this
      have h2 : dictGet T e.1 = some rT := hagree _ _ h1
      have h3 : e.1 = giver := dictGet_inj T hTvalsNodup _ _ _ h2 hrT
      rw [h3, hgu] at h1
      exact Option.noConfusion h1
    have hrTrem : rT ∈ remaining := (inv.remainingIff rT).mpr ⟨hrTps, hrTnv⟩
    have hrTcand :
        rT ∈ remaining.filter (fun r => decide (r ≠ giver ∧ pairSet giver r ∉ fb)) := by
      rw [List.mem_filter]
      exact ⟨hrTrem, decide_eq_true ⟨Ne.symm hgrT, hfbT⟩⟩
    have hpass : ¬(aR = false ∧ dictGet assignment rT = some giver) := by
      rintro ⟨haR, hx⟩
      exact hT.no_mutual haR giver rT hrT (hagree _ _ hx)
    have hsucc : ∀ p, ∃ d,
        (backtrack P fb aR rest (remaining.filter (fun x => decide (x ≠ rT)))
          (dictSet assignment giver rT) p).1 = some d ∧ d ≠ [] := by
      intro p
      have hinv' := searchInv_extend inv hrTrem (Ne.symm hgrT) hfbT hpass
      have hagree' : ∀ g r, dictGet (dictSet assignment giver rT) g = some r →
          dictGet T g = some r := by
        intro g r h1
        by_cases hgg : g = giver
        · subst hgg
          rw [dictGet_dictSet_self] at h1
          cases h1
          exact hrT
        · rw [dictGet_dictSet_ne _ _ _ _ hgg] at h1
          exact hagree g r h1
      rcases ih _ _ p hinv' hagree' with ⟨d, hd, himp⟩
      exact ⟨d, hd, himp (Or.inr (dictSet_ne_nil _ _ _))⟩
    have hrTcands := (hP pos _).mem_iff.mpr hrTcand
    rcases @btLoop_complete aR giver
        (fun r a1 p =>
          backtrack P fb aR rest (remaining.filter (fun x => decide (x ≠ r))) a1 p)
        assignment hfresh rT hpass hsucc _ (pos + 1) hrTcands with ⟨d, hd, hdne⟩
    exact ⟨d, hd, fun _ => hdne⟩

/-- Completeness of one attempt: whenever a valid total assignment exists,
`_find_assignments` returns a dict, and it satisfies all five invariants;
the dict is non-empty whenever the participant list is. -/
theorem find_assignments_complete {P : Oracle} (hP : GoodPerms P) {ps : List String}
    (hnd : ps.Nodup) {fb : Finset (Finset String)} {aR : Bool} {T : Dict}
    (hT : ValidAssignment ps fb aR T) (pos : Nat) :
    ∃ d, (find_assignments P ps fb aR pos).1 = some d ∧ ValidAssignment ps fb aR d ∧
      (ps ≠ [] → d ≠ []) := by
  have hinv := searchInv_init ps fb aR (P pos ps) (P (pos + 1) ps) hnd (hP pos ps)
    (hP (pos + 1) ps)
  rcases backtrack_complete P hP ps fb aR T hT (P pos ps) (P (pos + 1) ps) [] (pos + 1 + 1)
      hinv (fun _ _ h => Option.noConfusion h) with ⟨d, hd, himp⟩
  refine ⟨d, hd, backtrack_sound P hP ps fb aR _ _ _ _ _ hinv hd, ?_⟩
  intro hps
  refine himp (Or.inl ?_)
  intro hg
  apply hps
  have hpp := hP pos ps
  rw [hg] at hpp
  exact hpp.symm.eq_nil

/-! Structure of the retry driver. -/

/-- One unfolding of the driver loop. -/
theorem attemptLoop_succ (P : Oracle) (ps : List String) (fb : Finset (Finset String))
    (aR : Bool) (n pos : Nat) :
    attemptLoop P ps fb aR (n + 1) pos =
      if truthy (find_assignments P ps fb aR pos).1 = true then
        (find_assignments P ps fb aR pos).1
      else attemptLoop P ps fb aR n (find_assignments P ps fb aR pos).2 := rfl

/-- The attempt sequence after one failed attempt is the original attempt
sequence shifted by one. -/
theorem attemptAt_shift (P : Oracle) (ps : List String) (fb : Finset (Finset String))
    (aR : Bool) (pos : Nat) :
    ∀ k, attemptAt P ps fb aR (find_assignments P ps fb aR pos).2 k =
      attemptAt P ps fb aR pos (k + 1) := by
  intro k
  induction k with
  | zero => rfl
  | succ k ih =>
    show find_assignments P ps fb aR
      (attemptAt P ps fb aR (find_assignments P ps fb aR pos).2 k).2 = _
    rw [ih]
    rfl

/-- The driver loop fails exactly when each of its attempts is falsy. -/
theorem attemptLoop_eq_none_iff (P : Oracle) (ps : List String)
    (fb : Finset (Finset String)) (aR : Bool) :
    ∀ n pos, attemptLoop P ps fb aR n pos = none ↔
      ∀ k, k < n → truthy (attemptAt P ps fb aR pos k).1 = false := by
  intro n
  induction n with
  | zero =>
    intro pos
    simp [attemptLoop]
  | succ n ih =>
    intro pos
    rw [attemptLoop_succ]
    by_cases ht : truthy (find_assignments P ps fb aR pos).1 = true
    · rw [if_pos ht]
      constructor
      · intro h
        rw [h] at ht
        simp [truthy] at ht
      · intro h
        have h0 : truthy (find_assignments P ps fb aR pos).1 = false :=
          h 0 (Nat.succ_pos n)
        rw [h0] at ht
        exact absurd ht (by simp)
    · rw [if_neg ht]
      rw [ih]
      constructor
      · intro h k hk
        cases k with
        | zero => exact Bool.eq_false_iff.mpr ht
        | succ k =>
          rw [← attemptAt_shift P ps fb aR pos k]
          exact h k (Nat.lt_of_succ_lt_succ hk)
      · intro h k hk
        rw [attemptAt_shift P ps fb aR pos k]
        exact h (k + 1) (Nat.succ_lt_succ hk)

/-- When attempt `j` is the first truthy attempt within the bound, the
driver returns exactly that attempt's result. -/
theorem attemptLoop_first_hit (P : Oracle) (ps : List String)
    (fb : Finset (Finset String)) (aR : Bool) :
    ∀ j n pos, j < n → truthy (attemptAt P ps fb aR pos j).1 = true →
      (∀ k, k < j → truthy (attemptAt P ps fb aR pos k).1 = false) →
      attemptLoop P ps fb aR n pos = (attemptAt P ps fb aR pos j).1 := by
  intro j
  induction j with
  | zero =>
    intro n pos hn ht _
    obtain ⟨m, rfl⟩ : ∃ m, n = m + 1 := ⟨n - 1, by omega⟩
    have ht' : truthy (find_assignments P ps fb aR pos).1 = true := ht
    rw [attemptLoop_succ, if_pos ht']
    rfl
  | succ j ih =>
    intro n pos hn ht hmin
    obtain ⟨m, rfl⟩ : ∃ m, n = m + 1 := ⟨n - 1, by omega⟩
    have h0 : truthy (find_assignments P ps fb aR pos).1 = false :=
      hmin 0 (Nat.succ_pos j)
    rw [attemptLoop_succ, if_neg (by simp [h0])]
    rw [← attemptAt_shift P ps fb aR pos j] at ht ⊢
    refine ih m _ (Nat.lt_of_succ_lt_succ hn) ht ?_
    intro k hk
    rw [attemptAt_shift P ps fb aR pos k]
    exact hmin (k + 1) (Nat.succ_lt_succ hk)

/-! Behaviour of the search under constraint sets that agree on real pairs. -/

/-- Two forbidden sets that agree on every two-element pair produce
identical backtracking behaviour: the self-pair filter `r ≠ giver` is
applied before the forbidden-set test, so singleton members are never
consulted. -/
theorem backtrack_congr (P : Oracle) (aR : Bool) (fb1 fb2 : Finset (Finset String))
    (hfb : ∀ g r, g ≠ r → (pairSet g r ∈ fb1 ↔ pairSet g r ∈ fb2)) :
    ∀ (givers remaining : List String) (assignment : Dict) (pos : Nat),
      backtrack P fb1 aR givers remaining assignment pos =
      backtrack P fb2 aR givers remaining assignment pos := by
  intro givers
  induction givers with
  | nil =>
    intro remaining assignment pos
    rw [backtrack_nil, backtrack_nil]
  | cons giver rest ih =>
    intro remaining assignment pos
    rw [backtrack_cons, backtrack_cons]
    have hcand : remaining.filter (fun r => decide (r ≠ giver ∧ pairSet giver r ∉ fb1)) =
        remaining.filter (fun r => decide (r ≠ giver ∧ pairSet giver r ∉ fb2)) := by
      apply List.filter_congr
      intro x _
      apply decide_eq_decide.mpr
      by_cases hx : x = giver
      · subst hx
        simp
      · have hgx : giver ≠ x := fun he => hx he.symm
        constructor
        · rintro ⟨h1, h2⟩
          exact ⟨h1, fun hm => h2 ((hfb giver x hgx).mpr hm)⟩
        · rintro ⟨h1, h2⟩
          exact ⟨h1, fun hm => h2 ((hfb giver x hgx).mp hm)⟩
    have hrec :
        (fun r a1 p =>
          backtrack P fb1 aR rest (remaining.filter (fun x => decide (x ≠ r))) a1 p) =
        (fun r a1 p =>
          backtrack P fb2 aR rest (remaining.filter (fun x => decide (x ≠ r))) a1 p) := by
      funext r a1 p
      exact ih _ a1 p
    rw [hcand, hrec]

/-- The whole generator is unchanged by replacing the forbidden set with one
that agrees on every two-element pair. -/
theorem attemptLoop_congr (P : Oracle) (ps : List String) (aR : Bool)
    (fb1 fb2 : Finset (Finset String))
    (hfb : ∀ g r, g ≠ r → (pairSet g r ∈ fb1 ↔ pairSet g r ∈ fb2)) :
    ∀ n pos, attemptLoop P ps fb1 aR n pos = attemptLoop P ps fb2 aR n pos := by
  have hfind : ∀ pos, find_assignments P ps fb1 aR pos = find_assignments P ps fb2 aR pos := by
    intro pos
    show backtrack P fb1 aR (P pos ps) (P (pos + 1) ps) [] (pos + 1 + 1) =
      backtrack P fb2 aR (P pos ps) (P (pos + 1) ps) [] (pos + 1 + 1)
    exact backtrack_congr P aR fb1 fb2 hfb _ _ _ _
  intro n
  induction n with
  | zero => intro pos; rfl
  | succ n ih =>
    intro pos
    rw [attemptLoop_succ, attemptLoop_succ, hfind pos, ih]

/-- Membership in the built forbidden structure. -/
theorem mem_build_forbidden_set (pairs : List (String × String)) (s : Finset String) :
    s ∈ build_forbidden_set pairs ↔ ∃ p ∈ pairs, pairSet p.1 p.2 = s := by
  simp [build_forbidden_set]

/-- A frozenset of a self-pair is a singleton. -/
theorem pairSet_self (a : String) : pairSet a a = {a} := by
  simp [pairSet]

/-- Adding a self-pair anywhere in the pair list does not change membership
of any two-element pair in the built structure. -/
theorem mem_build_middle_self (l1 l2 : List (String × String)) (a g r : String)
    (hgr : g ≠ r) :
    pairSet g r ∈ build_forbidden_set (l1 ++ (a, a) :: l2) ↔
      pairSet g r ∈ build_forbidden_set (l1 ++ l2) := by
  rw [mem_build_forbidden_set, mem_build_forbidden_set]
  constructor
  · rintro ⟨p, hp, hps⟩
    rcases List.mem_append.mp hp with h1 | h1
    · exact ⟨p, List.mem_append.mpr (Or.inl h1), hps⟩
    · rcases List.mem_cons.mp h1 with h2 | h2
      · exfalso
        subst h2
        have hcard2 : (pairSet g r).card = 2 := Finset.card_pair hgr
        have hcard1 : (pairSet a a).card = 1 := by rw [pairSet_self]; simp
        rw [show pairSet (a, a).1 (a, a).2 = pairSet a a from rfl, hps, hcard2] at hcard1
        exact absurd hcard1 (by decide)
      · exact ⟨p, List.mem_append.mpr (Or.inr h2), hps⟩
  · rintro ⟨p, hp, hps⟩
    rcases List.mem_append.mp hp with h1 | h1
    · exact ⟨p, List.mem_append.mpr (Or.inl h1), hps⟩
    · exact ⟨p, List.mem_append.mpr (Or.inr (List.mem_cons_of_mem _ h1)), hps⟩

/-! Degenerate participant lists. -/

/-- A single participant has no candidates (the filter removes the giver
themselves), so one attempt returns `None`. -/
theorem find_assignments_singleton {P : Oracle} (hP : GoodPerms P) (x : String)
    (fb : Finset (Finset String)) (aR : Bool) (pos : Nat) :
    (find_assignments P [x] fb aR pos).1 = none := by
  have h1 : P pos [x] = [x] := List.perm_singleton.mp (hP pos [x])
  have h2 : P (pos + 1) [x] = [x] := List.perm_singleton.mp (hP (pos + 1) [x])
  show (backtrack P fb aR (P pos [x]) (P (pos + 1) [x]) [] (pos + 1 + 1)).1 = none
  rw [h1, h2, backtrack_cons]
  have hcand : ([x] : List String).filter
      (fun r => decide (r ≠ x ∧ pairSet x r ∉ fb)) = [] := by
    simp
  rw [hcand, (hP (pos + 1 + 1) []).eq_nil, btLoop_nil]

/-- Every attempt on a singleton list fails, for any number of attempts. -/
theorem attemptLoop_singleton {P : Oracle} (hP : GoodPerms P) (x : String)
    (fb : Finset (Finset String)) (aR : Bool) :
    ∀ n pos, attemptLoop P [x] fb aR n pos = none := by
  intro n
  induction n with
  | zero => intro pos; rfl
  | succ n ih =>
    intro pos
    rw [attemptLoop_succ,
      if_neg (by simp [find_assignments_singleton hP x fb aR pos, truthy])]
    exact ih _

/-- On the empty participant list one attempt returns the empty dict. -/
theorem find_assignments_empty {P : Oracle} (hP : GoodPerms P)
    (fb : Finset (Finset String)) (aR : Bool) (pos : Nat) :
    find_assignments P [] fb aR pos = (some [], pos + 1 + 1) := by
  show backtrack P fb aR (P pos []) (P (pos + 1) []) [] (pos + 1 + 1) = (some [], pos + 1 + 1)
  rw [(hP pos []).eq_nil, backtrack_nil]

/-- Every attempt on the empty list is falsy (the empty dict), for any
number of attempts. -/
theorem attemptLoop_empty {P : Oracle} (hP : GoodPerms P)
    (fb : Finset (Finset String)) (aR : Bool) :
    ∀ n pos, attemptLoop P [] fb aR n pos = none := by
  intro n
  induction n with
  | zero => intro pos; rfl
  | succ n ih =>
    intro pos
    rw [attemptLoop_succ,
      if_neg (by simp [find_assignments_empty hP fb aR pos, truthy])]
    exact ih _

/-- List duplication test of `main` in terms of `Nodup`. -/
theorem toFinset_card_ne_length_iff (l : List String) :
    l.toFinset.card ≠ l.length ↔ ¬ l.Nodup := by
  constructor
  · intro h hn
    exact h (List.toFinset_card_of_nodup hn)
  · intro hn h
    apply hn
    rw [List.card_toFinset] at h
    have hd : l.dedup = l := (List.dedup_sublist l).eq_of_length_le (le_of_eq h.symm)
    exact List.dedup_eq_self.mp hd

/-- Success of `verify_assignments` in terms of its five checks. -/
theorem verify_ok_iff (assignments : Dict) (participants : List String) :
    verify_assignments assignments participants = Except.ok () ↔
      (participants.toFinset \ (dkeys assignments).toFinset = ∅ ∧
       participants.toFinset \ (dvals assignments).toFinset = ∅ ∧
       (dvals assignments).length = (dvals assignments).toFinset.card ∧
       (dkeys assignments).toFinset \ participants.toFinset = ∅ ∧
       (dvals assignments).toFinset \ participants.toFinset = ∅) := by
  rw [verify_assignments]
  by_cases h1 : participants.toFinset \ (dkeys assignments).toFinset = ∅ <;>
    by_cases h2 : participants.toFinset \ (dvals assignments).toFinset = ∅ <;>
      by_cases h3 : (dvals assignments).length = (dvals assignments).toFinset.card <;>
        by_cases h4 : (dkeys assignments).toFinset \ participants.toFinset = ∅ <;>
          by_cases h5 : (dvals assignments).toFinset \ participants.toFinset = ∅ <;>
            simp [h1, h2, h3, h4, h5]

/-- A list has as many entries as its set of entries exactly when it has no
duplicates. -/
theorem length_eq_toFinset_card_iff (l : List String) :
    l.length = l.toFinset.card ↔ l.Nodup := by
  constructor
  · intro h
    have hd : l.dedup = l :=
      (List.dedup_sublist l).eq_of_length_le (le_of_eq (by rw [← List.card_toFinset, ← h]))
    exact List.dedup_eq_self.mp hd
  · intro h
    exact (List.toFinset_card_of_nodup h).symm

/-- The swap assignment on participants A and B satisfies all five
invariants with no forbidden pairs and reciprocity allowed. -/
theorem validPairAB :
    ValidAssignment ["A", "B"] (build_forbidden_set []) true [("A", "B"), ("B", "A")] := by
  refine
    { givers_perm := by decide
      recips_perm := by decide
      no_self := ?_
      no_forbidden := ?_
      no_mutual := ?_ }
  · intro g r h
    have hm := dictGet_mem _ _ _ h
    simp only [List.mem_cons, List.not_mem_nil, or_false, Prod.mk.injEq] at hm
    rcases hm with ⟨hg, hr⟩ | ⟨hg, hr⟩ <;> subst hg <;> subst hr <;> decide
  · intro g r _
    rw [show build_forbidden_set [] = ∅ from rfl]
    exact Finset.not_mem_empty _
  · intro h
    exact absurd h (by decide)

/-! The ten claims. -/

/-- C1: every assignment returned by `generate_pairings` (equivalently,
every non-None result of `_find_assignments` that the driver accepts)
satisfies all five invariants of section 3: giver domain equals the
participant set, recipients are exactly the participant set each used once,
no self-assignment, no forbidden pair crossed, and no mutual pair when
reciprocity is disallowed.  (`GoodPerms` is the contract of
`random.shuffle`; duplicate-free participants is the data-model invariant
`main` enforces before generation.) -/
theorem generate_pairings_valid (P : Oracle) (ps : List String)
    (fps : List (String × String)) (aR : Bool) (pos : Nat) (d : Dict)
    (hP : GoodPerms P) (hnd : ps.Nodup)
    (h : generate_pairings P ps fps aR pos = some d) :
    ValidAssignment ps (build_forbidden_set fps) aR d :=
  attemptLoop_sound hP hnd _ aR 5000 pos d h

/-- Witness for C1 at a concrete run. -/
theorem generate_pairings_valid_witness :
    ValidAssignment ["A", "B"] (build_forbidden_set []) true [("A", "B"), ("B", "A")] :=
  generate_pairings_valid idOracle ["A", "B"] [] true 0 [("A", "B"), ("B", "A")]
    (fun _ l => List.Perm.refl l) (by decide) (by decide)

/-- C2 counterexample: on the empty participant list a valid assignment
(the empty one) exists, yet `generate_pairings` raises Infeasible, because
the driver's truthiness test rejects the empty dict that every attempt
returns. -/
theorem backtracking_exhaustive_counterexample :
    ValidAssignment [] (build_forbidden_set []) true [] ∧
    generate_pairings idOracle [] [] true 0 = none := by
  constructor
  · exact
      { givers_perm := List.Perm.refl _
        recips_perm := List.Perm.refl _
        no_self := fun g r h => Option.noConfusion h
        no_forbidden := fun g r h => Option.noConfusion h
        no_mutual := fun _ g r h _ => Option.noConfusion h }
  · exact attemptLoop_empty (fun _ l => List.Perm.refl l) (build_forbidden_set []) true 5000 0

/-- C2 (amended): within a single attempt the backtracking search is
exhaustive: for every duplicate-free participant list, forbidden set and
reciprocity policy for which a valid assignment exists, each call of
`_find_assignments` returns a valid assignment, and for NONEMPTY
participant lists `generate_pairings` consequently returns a valid
assignment rather than raising Infeasible. -/
theorem backtracking_exhaustive (P : Oracle) (ps : List String)
    (fps : List (String × String)) (aR : Bool) (pos : Nat) (T : Dict)
    (hP : GoodPerms P) (hnd : ps.Nodup)
    (hT : ValidAssignment ps (build_forbidden_set fps) aR T) :
    (∃ d, (find_assignments P ps (build_forbidden_set fps) aR pos).1 = some d ∧
      ValidAssignment ps (build_forbidden_set fps) aR d) ∧
    (ps ≠ [] → ∃ d, generate_pairings P ps fps aR pos = some d ∧
      ValidAssignment ps (build_forbidden_set fps) aR d) := by
  rcases find_assignments_complete hP hnd hT pos with ⟨d, hd, hvalid, hne⟩
  refine ⟨⟨d, hd, hvalid⟩, ?_⟩
  intro hps
  refine ⟨d, ?_, hvalid⟩
  have ht : truthy (find_assignments P ps (build_forbidden_set fps) aR pos).1 = true := by
    rw [hd]
    simp [truthy, hne hps]
  show attemptLoop P ps (build_forbidden_set fps) aR 5000 pos = some d
  rw [show (5000 : Nat) = 4999 + 1 from rfl, attemptLoop_succ, if_pos ht, hd]

/-- Witness for C2 at a concrete feasible input. -/
theorem backtracking_exhaustive_witness :
    ∃ d, generate_pairings idOracle ["A", "B"] [] true 0 = some d ∧
      ValidAssignment ["A", "B"] (build_forbidden_set []) true d :=
  (backtracking_exhaustive idOracle ["A", "B"] [] true 0 [("A", "B"), ("B", "A")]
    (fun _ l => List.Perm.refl l) (by decide) validPairAB).2 (by decide)

/-- C3: `generate_pairings` performs up to 5000 attempts on a fresh random
stream position each; it returns `None` (raises Infeasible) exactly when
all 5000 attempts are falsy, and it returns the result of the first truthy
attempt. -/
theorem generate_pairings_attempt_semantics (P : Oracle) (ps : List String)
    (fps : List (String × String)) (aR : Bool) (pos : Nat) :
    (generate_pairings P ps fps aR pos = none ↔
      ∀ k, k < 5000 →
        truthy (attemptAt P ps (build_forbidden_set fps) aR pos k).1 = false) ∧
    (∀ j, j < 5000 →
      truthy (attemptAt P ps (build_forbidden_set fps) aR pos j).1 = true →
      (∀ k, k < j →
        truthy (attemptAt P ps (build_forbidden_set fps) aR pos k).1 = false) →
      generate_pairings P ps fps aR pos =
        (attemptAt P ps (build_forbidden_set fps) aR pos j).1) := by
  constructor
  · exact attemptLoop_eq_none_iff P ps (build_forbidden_set fps) aR 5000 pos
  · intro j hj ht hmin
    exact attemptLoop_first_hit P ps (build_forbidden_set fps) aR j 5000 pos hj ht hmin

/-- Witness for C3: a first attempt that succeeds is returned. -/
theorem generate_pairings_attempt_semantics_witness :
    generate_pairings idOracle ["A", "B"] [] true 0 =
      (attemptAt idOracle ["A", "B"] (build_forbidden_set []) true 0 0).1 :=
  (generate_pairings_attempt_semantics idOracle ["A", "B"] [] true 0).2 0 (by decide)
    (by decide) (fun k hk => absurd hk (Nat.not_lt_zero k))

/-- C4: the forbidden structure treats (a, b) and (b, a) identically, both
for membership queries and when building from a list with a pair
transposed; purity and determinism are inherent to the embedding, where
`_build_forbidden_set` is a function of its input. -/
theorem build_forbidden_set_symmetric (pairs l1 l2 : List (String × String))
    (a b : String) :
    (pairSet a b ∈ build_forbidden_set pairs ↔ pairSet b a ∈ build_forbidden_set pairs) ∧
    build_forbidden_set (l1 ++ (a, b) :: l2) = build_forbidden_set (l1 ++ (b, a) :: l2) := by
  have hcomm : pairSet a b = pairSet b a := Finset.pair_comm a b
  constructor
  · rw [hcomm]
  · unfold build_forbidden_set
    simp only [List.map_append, List.map_cons]
    rw [hcomm]

/-- C5: with identical inputs and identical random streams (extensionally
equal shuffle outcomes from equal positions) two runs of
`generate_pairings` produce the same result. -/
theorem generate_pairings_deterministic (P Q : Oracle) (ps : List String)
    (fps : List (String × String)) (aR : Bool) (pos1 pos2 : Nat)
    (hPQ : ∀ n l, P n l = Q n l) (hpos : pos1 = pos2) :
    generate_pairings P ps fps aR pos1 = generate_pairings Q ps fps aR pos2 := by
  have hP : P = Q := funext fun n => funext fun l => hPQ n l
  rw [hP, hpos]

/-- Witness for C5. -/
theorem generate_pairings_deterministic_witness :
    generate_pairings idOracle ["A", "B"] [] true 0 =
      generate_pairings idOracle ["A", "B"] [] true 0 :=
  generate_pairings_deterministic idOracle idOracle ["A", "B"] [] true 0 0
    (fun _ _ => rfl) rfl

/-- C6: with a single participant every candidate list is empty (the filter
excludes the giver themselves), so every attempt fails and
`generate_pairings` raises Infeasible; no trivial or self-assigning mapping
is ever returned. -/
theorem generate_pairings_singleton_infeasible (P : Oracle) (x : String)
    (fps : List (String × String)) (aR : Bool) (pos : Nat) (hP : GoodPerms P) :
    generate_pairings P [x] fps aR pos = none :=
  attemptLoop_singleton hP x (build_forbidden_set fps) aR 5000 pos

/-- Witness for C6. -/
theorem generate_pairings_singleton_infeasible_witness :
    generate_pairings idOracle ["A"] [] true 0 = none :=
  generate_pairings_singleton_infeasible idOracle "A" [] true 0
    (fun _ l => List.Perm.refl l)

/-- C7: duplicate participant identifiers make `main` raise the
configuration `ValueError` at the start, for every random stream and
position — i.e. before and independent of any generation attempt, and with
no retry. -/
theorem main_duplicate_configuration_error (P : Oracle) (ps : List String)
    (fps : List (String × String)) (aR : Bool) (pos : Nat) (hdup : ¬ ps.Nodup) :
    main P ps fps aR pos =
      Except.error (MainError.configError "Participant names must be unique.") := by
  rw [main, if_pos ((toFinset_card_ne_length_iff ps).mpr hdup)]

/-- Witness for C7. -/
theorem main_duplicate_configuration_error_witness :
    main idOracle ["A", "A"] [] true 0 =
      Except.error (MainError.configError "Participant names must be unique.") :=
  main_duplicate_configuration_error idOracle ["A", "A"] [] true 0 (by decide)

/-- C8: a self-pair is stored as a singleton set, its presence does not
change any membership test for a real pair {g, r} with g ≠ r, and the
generator's behaviour is identical with or without it. -/
theorem self_pairs_inert (P : Oracle) (ps : List String)
    (l1 l2 : List (String × String)) (a g r : String) (aR : Bool) (pos : Nat) :
    pairSet a a = {a} ∧
    (g ≠ r → (pairSet g r ∈ build_forbidden_set (l1 ++ (a, a) :: l2) ↔
      pairSet g r ∈ build_forbidden_set (l1 ++ l2))) ∧
    generate_pairings P ps (l1 ++ (a, a) :: l2) aR pos =
      generate_pairings P ps (l1 ++ l2) aR pos := by
  refine ⟨pairSet_self a, fun hgr => mem_build_middle_self l1 l2 a g r hgr, ?_⟩
  exact attemptLoop_congr P ps aR _ _
    (fun g' r' hgr' => mem_build_middle_self l1 l2 a g' r' hgr') 5000 pos

/-- Witness for C8. -/
theorem self_pairs_inert_witness :
    pairSet "A" "A" = {"A"} ∧
    (pairSet "B" "C" ∈ build_forbidden_set [("A", "A"), ("B", "C")] ↔
      pairSet "B" "C" ∈ build_forbidden_set [("B", "C")]) ∧
    generate_pairings idOracle ["A", "B"] [("A", "A"), ("B", "C")] true 0 =
      generate_pairings idOracle ["A", "B"] [("B", "C")] true 0 := by
  obtain ⟨h1, h2, h3⟩ :=
    self_pairs_inert idOracle ["A", "B"] [] [("B", "C")] "A" "B" "C" true 0
  exact ⟨h1, h2 (by decide), h3⟩

/-- C9: on the empty participant list every attempt returns the empty dict,
which the driver's truthiness test counts as a failure, so
`generate_pairings` raises Infeasible instead of returning the empty
assignment. -/
theorem generate_pairings_empty_infeasible (P : Oracle) (fb : Finset (Finset String))
    (fps : List (String × String)) (aR : Bool) (pos : Nat) (hP : GoodPerms P) :
    find_assignments P [] fb aR pos = (some [], pos + 1 + 1) ∧
    generate_pairings P [] fps aR pos = none :=
  ⟨find_assignments_empty hP fb aR pos,
   attemptLoop_empty hP (build_forbidden_set fps) aR 5000 pos⟩

/-- Witness for C9. -/
theorem generate_pairings_empty_infeasible_witness :
    find_assignments idOracle [] (build_forbidden_set []) true 0 = (some [], 0 + 1 + 1) ∧
    generate_pairings idOracle [] [] true 0 = none :=
  generate_pairings_empty_infeasible idOracle (build_forbidden_set []) [] true 0
    (fun _ l => List.Perm.refl l)

/-- C10: `verify_assignments` raises exactly when the giver set or the
recipient set differs from the participant set or a recipient repeats; in
particular a self-assigning mapping with full coverage is accepted. -/
theorem verify_assignments_error_iff :
    (∀ (assignments : Dict) (participants : List String),
      verify_assignments assignments participants ≠ Except.ok () ↔
        ((dkeys assignments).toFinset ≠ participants.toFinset ∨
         (dvals assignments).toFinset ≠ participants.toFinset ∨
         ¬ (dvals assignments).Nodup)) ∧
    verify_assignments [("A", "A"), ("B", "B")] ["A", "B"] = Except.ok () := by
  constructor
  · intro a ps
    rw [Ne, verify_ok_iff]
    rw [Finset.sdiff_eq_empty_iff_subset, Finset.sdiff_eq_empty_iff_subset,
      Finset.sdiff_eq_empty_iff_subset, Finset.sdiff_eq_empty_iff_subset,
      length_eq_toFinset_card_iff]
    have hG : (dkeys a).toFinset = ps.toFinset ↔
        ((dkeys a).toFinset ⊆ ps.toFinset ∧ ps.toFinset ⊆ (dkeys a).toFinset) :=
      Finset.Subset.antisymm_iff
    have hR : (dvals a).toFinset = ps.toFinset ↔
        ((dvals a).toFinset ⊆ ps.toFinset ∧ ps.toFinset ⊆ (dvals a).toFinset) :=
      Finset.Subset.antisymm_iff
    simp only [ne_eq, hG, hR]
    tauto
  · rw [verify_ok_iff]
    refine ⟨by decide, by decide, by decide, by decide, by decide⟩

end Santa
